import Mathlib

/-!
# Verification of the snake-RL agent subsystem (src/agent.py)

Shallow embedding of the decision-and-learning agents of the repository:
coordinate conversion (`Agent._point_to_row_col` / `Agent._row_col_to_point`),
masked action selection and target construction (`DeepQLearningAgent.move` /
`train_agent` / `get_action_proba`), the policy-gradient loss
(`PolicyGradientAgent.train_agent`), the Hamiltonian-cycle construction and
traversal (`HamiltonianCycleAgent`), and the BFS planner
(`BreadthFirstSearchAgent`).

Numeric model: float arrays are embedded as functions into `ℚ` (or `ℝ` where
the computation is genuinely transcendental, i.e. softmax), `np.inf` as `⊥` in
`WithBot ℚ` respectively `⊤` in `ℕ∞` for BFS distances.  Integer indices are
`ℕ` (or `ℤ` inside the BFS planner, where Python arithmetic can produce
negative flat indices).
-/

namespace SnakeRL

/-! ## Definitions -/

/-- `Agent._point_to_row_col` (src/agent.py:182-196): `(point//size, point%size)`. -/
def point_to_row_col (n p : ℕ) : ℕ × ℕ := (p / n, p % n)

/-- `Agent._row_col_to_point` (src/agent.py:198-213): `row*size + col`. -/
def row_col_to_point (n row col : ℕ) : ℕ := row * n + col

/-- `np.where(legal_moves == 1, model_outputs, -np.inf)` (src/agent.py:309):
model outputs are finite floats, embedded in `WithBot ℚ` with `⊥` for `-inf`. -/
def maskedOutputs (k : ℕ) (legal model_outputs : Fin k → ℚ) : Fin k → WithBot ℚ :=
  fun i => if legal i = 1 then ((model_outputs i : ℚ) : WithBot ℚ) else ⊥

/-- `np.argmax` along a row: the first index attaining the maximum (numpy
returns the first occurrence; the fold replaces the candidate only on a
strictly larger value). -/
def argmaxIdx (k : ℕ) (v : Fin (k + 1) → WithBot ℚ) : Fin (k + 1) :=
  (List.finRange (k + 1)).foldl (fun best i => if v best < v i then i else best) 0

/-- `DeepQLearningAgent.move` (src/agent.py:305-309), one batch row:
`np.argmax(np.where(legal_moves == 1, model_outputs, -np.inf), axis=1)`. -/
def dqnMove (k : ℕ) (model_outputs legal : Fin (k + 1) → ℚ) : Fin (k + 1) :=
  argmaxIdx k (maskedOutputs (k + 1) legal model_outputs)

/-- `np.max(np.where(legal_moves==1, next_model_outputs, -10000), axis=1)`
(src/agent.py:367), one batch row: per-row maximum after masking illegal
next-state actions to the sentinel `-10000`. -/
def maskedNextMax (k : ℕ) (legal next_outputs : Fin (k + 1) → ℚ) : ℚ :=
  Finset.univ.sup' Finset.univ_nonempty
    (fun i => if legal i = 1 then next_outputs i else -10000)

/-- `discounted_reward = r + (gamma * max(...)) * (1 - done)`
(src/agent.py:366-368), one batch row. -/
def discountedReward (k : ℕ) (gamma r done : ℚ) (legal next_outputs : Fin (k + 1) → ℚ) : ℚ :=
  r + gamma * maskedNextMax k legal next_outputs * (1 - done)

/-- `target = (1-a)*target + a*discounted_reward` (src/agent.py:370-372), one
batch row: `a` is the stored one-hot action vector, `current_outputs` the
online model's output for the sampled state. -/
def qTarget (k : ℕ) (a current_outputs : Fin (k + 1) → ℚ) (dr : ℚ) : Fin (k + 1) → ℚ :=
  fun j => (1 - a j) * current_outputs j + a j * dr

/-- `np.clip(model_outputs, -10, 10)` (src/agent.py:320), entrywise:
`min(max(x, -10), 10)`. -/
noncomputable def clipOutputs (k : ℕ) (model_outputs : Fin (k + 1) → ℝ) : Fin (k + 1) → ℝ :=
  fun i => min (max (model_outputs i) (-10)) 10

/-- `model_outputs -= model_outputs.max(axis=1, keepdims=True)`
(src/agent.py:323) applied after clipping, one batch row. -/
noncomputable def shiftedOutputs (k : ℕ) (model_outputs : Fin (k + 1) → ℝ) : Fin (k + 1) → ℝ :=
  fun i => clipOutputs k model_outputs i -
    Finset.univ.sup' Finset.univ_nonempty (clipOutputs k model_outputs)

/-- `DeepQLearningAgent.get_action_proba` (src/agent.py:317-329), one batch
row: clip to `[-10, 10]`, subtract the per-row maximum, exponentiate and
normalize (`exp_outputs / exp_outputs.sum(axis=1)`). -/
noncomputable def get_action_proba (k : ℕ) (model_outputs : Fin (k + 1) → ℝ) :
    Fin (k + 1) → ℝ :=
  fun i => Real.exp (shiftedOutputs k model_outputs i) /
    ∑ j, Real.exp (shiftedOutputs k model_outputs j)

/-- `torch.nn.functional.log_softmax` along a row (src/agent.py:439):
`x_j - log(sum_i exp(x_i))`. -/
noncomputable def logSoftmaxRow (k : ℕ) (logits : Fin (k + 1) → ℝ) (j : Fin (k + 1)) : ℝ :=
  logits j - Real.log (∑ i, Real.exp (logits i))

/-- `torch.nn.functional.softmax` along a row (src/agent.py:447). -/
noncomputable def softmaxRow (k : ℕ) (logits : Fin (k + 1) → ℝ) (j : Fin (k + 1)) : ℝ :=
  Real.exp (logits j) / ∑ i, Real.exp (logits i)

/-- A transition as used by `PolicyGradientAgent.train_agent`: sampled state,
stored action index, reward (the other sampled components are discarded at
src/agent.py:426). -/
structure PGTransition (sigma : Type) (k : ℕ) where
  state : sigma
  action : Fin (k + 1)
  reward : ℝ

/-- `PolicyGradientAgent.__init__` passes `use_target_net=False`
(src/agent.py:418): the agent has no target network. -/
def policyGradientUsesTargetNet : Bool := false

/-- `PolicyGradientAgent.train_agent` (src/agent.py:424-456): samples the
entire current buffer (`self._buffer.sample(self._buffer.get_current_size())`,
line 426 — `batch_size` is accepted but never read), computes per-transition
log-probabilities by log-softmax of the policy logits, gathers the taken
action's log-probability, and returns
`loss = -mean(selected_log_probs * rewards)` minus `beta * entropy` when
`beta > 0`, where `entropy = -(probs * log_probs).sum(dim=1).mean()` over the
same logits.  `model` abstracts the policy network's row of logits per state. -/
noncomputable def pgTrainAgentLoss (sigma : Type) (k : ℕ) (model : sigma → Fin (k + 1) → ℝ)
    (buffer : List (PGTransition sigma k)) (batch_size : ℕ) (beta : ℝ) : ℝ :=
  let n : ℝ := buffer.length
  let loss : ℝ :=
    -((buffer.map (fun t => logSoftmaxRow k (model t.state) t.action * t.reward)).sum / n)
  if 0 < beta then
    loss - beta *
      ((buffer.map (fun t =>
        -∑ j, softmaxRow k (model t.state) j * logSoftmaxRow k (model t.state) j)).sum / n)
  else loss

/-- The cell-value mapping handed to the planning agents at call time
(`values` dict: `{board, snake, food, head}`); opaque numeric codes. -/
structure CellValues where
  board : ℕ
  snake : ℕ
  food : ℕ
  head : ℕ

/-- One iteration of the serpentine-sweep loop of
`HamiltonianCycleAgent._get_cycle_square` (src/agent.py:749-773) for
`index ≥ 1`: the next flat cell from the current flat cell `sp`, written with
`sp // board_size` and `sp % board_size` exactly as the source computes rows
and columns. -/
def nextSp (n idx sp : ℕ) : ℕ :=
  if sp / n = 2 ∧ sp % n = n - 2 then
    (sp / n - 1) * n + sp % n
  else if idx ≠ 1 ∧ sp / n = 1 then
    (sp / n) * n + (sp % n - 1)
  else if (sp % n) % 2 = 1 then
    (if ((sp / n + 1) * n + sp % n) / n = n - 1 then
      (((sp / n + 1) * n + sp % n) / n - 1) * n + (((sp / n + 1) * n + sp % n) % n + 1)
    else (sp / n + 1) * n + sp % n)
  else
    (if ((sp / n - 1) * n + sp % n) / n = 1 then
      (((sp / n - 1) * n + sp % n) / n + 1) * n + (((sp / n - 1) * n + sp % n) % n + 1)
    else (sp / n - 1) * n + sp % n)

/-- The filling loop of `_get_cycle_square` (src/agent.py:746-773):
`cycle[index] = sp` for `index = 0, ..., (size-2)^2 - 1`, each subsequent `sp`
produced by `nextSp`.  `fuel` counts the remaining iterations. -/
def cycleGo (n : ℕ) : ℕ → ℕ → ℕ → List ℕ
  | 0, _, _ => []
  | fuel + 1, idx, sp =>
    if idx = 0 then sp :: cycleGo n fuel (idx + 1) sp
    else
      let sp2 := nextSp n idx sp
      sp2 :: cycleGo n fuel (idx + 1) sp2

/-- `HamiltonianCycleAgent._get_cycle_square` (src/agent.py:740-773): the
cycle array of length `(size-2)^2`, starting at `sp = 1*size + 1`. -/
def cycleList (n : ℕ) : List ℕ := cycleGo n ((n - 2) ^ 2) 0 (1 * n + 1)

/-- Closed form of the serpentine sweep over an interior of side `m = n - 2`:
position `i` of the cycle as a `(row, col)` pair.  Down column 1, serpentine
through columns `2..m` over rows `2..m`, then leftwards along row 1. -/
def cyclePointM (m i : ℕ) : ℕ × ℕ :=
  if i < m then (1 + i, 1)
  else if i < m + (m - 1) * (m - 1) then
    (if (2 + (i - m) / (m - 1)) % 2 = 0 then
      (m - (i - m) % (m - 1), 2 + (i - m) / (m - 1))
    else (2 + (i - m) % (m - 1), 2 + (i - m) / (m - 1)))
  else (1, m - (i - (m + (m - 1) * (m - 1))))

/-- Closed form of cycle position `i` as a flat cell index of the `n × n`
board. -/
def cpFlat (n i : ℕ) : ℕ := (cyclePointM (n - 2) i).1 * n + (cyclePointM (n - 2) i).2

/-- Manhattan distance between two `(row, col)` cells (`ℕ` encoding of
`|r₁-r₂| + |c₁-c₂|`). -/
def manhattanRC (p q : ℕ × ℕ) : ℕ := (p.1 - q.1) + (q.1 - p.1) + ((p.2 - q.2) + (q.2 - p.2))

/-- Manhattan distance between two flat cell indices of an `n × n` board. -/
def manhattanFlat (n p q : ℕ) : ℕ := manhattanRC (point_to_row_col n p) (point_to_row_col n q)

/-- A flat index denoting an interior cell of the `n × n` board: row and
column both in `1 .. n-2`. -/
def isInteriorCell (n p : ℕ) : Prop :=
  1 ≤ p / n ∧ p / n ≤ n - 2 ∧ 1 ≤ p % n ∧ p % n ≤ n - 2

/-- `HamiltonianCycleAgent.__init__` (src/agent.py:675-683): the constructor
asserts `board_size % 2 == 0` (an odd size fails the assertion, so no agent is
produced) and then builds the cycle with `_get_cycle_square`. -/
def hamiltonianCycleAgentInit (board_size : ℕ) : Except String (List ℕ) :=
  if board_size % 2 = 0 then Except.ok (cycleList board_size)
  else Except.error "Board size should be odd for hamiltonian cycle"

/-- Concrete 8×8 board (all frames alike in frame index 0) exercising
`HamiltonianCycleAgent.move`: head code `7` at cell (1,1) — the cycle start —
an occupied cell (code `1`) at (1,2) — the cycle predecessor — and empty
(`0`) elsewhere. -/
def hamDemoBoard (r c f : ℕ) : ℕ :=
  if f = 0 ∧ r = 1 ∧ c = 1 then 7
  else if f = 0 ∧ r = 1 ∧ c = 2 then 1
  else 0

/-- Cell values used with `hamDemoBoard`. -/
def hamDemoValues : CellValues := ⟨0, 1, 2, 7⟩

/-- `np.sum(self._board_grid * (board[:,:,0] == values['head']))`
(src/agent.py:778-779): the sum, over all cells, of the flat index times the
head-indicator of frame 0. -/
def headPointNat (n : ℕ) (board : ℕ → ℕ → ℕ → ℕ) (hv : CellValues) : ℕ :=
  ∑ r ∈ Finset.range n, ∑ c ∈ Finset.range n, if board r c 0 = hv.head then r * n + c else 0

/-- `HamiltonianCycleAgent.move` (src/agent.py:775-809).  The source scans
`index = 0, 1, ...` cyclically until `cycle[index] == curr_head`; when the
head lies on the cycle this terminates at the first occurrence, embedded here
as `List.indexOf` (on a head not on the cycle the source loops forever).
`(index-1) % cy_len` is Python modular arithmetic, written on `ℕ` as
`(index + cy_len - 1) % cy_len`.  Returns the action as `ℤ` (the unmatched
displacement case returns `-1`). -/
def hamMove (n : ℕ) (board : ℕ → ℕ → ℕ → ℕ) (hv : CellValues) : ℤ :=
  let cy_len := (n - 2) ^ 2
  let curr_head := headPointNat n board hv
  let index := (cycleList n).indexOf curr_head
  let prev_head := (cycleList n).getD ((index + cy_len - 1) % cy_len) 0
  let next_head := (cycleList n).getD ((index + 1) % cy_len) 0
  if board (prev_head / n) (prev_head % n) 0 = 0 then
    (if curr_head < next_head then 3 else 1)
  else
    let ch := point_to_row_col n curr_head
    let nh := point_to_row_col n next_head
    let dx : ℤ := (nh.2 : ℤ) - (ch.2 : ℤ)
    let dy : ℤ := (ch.1 : ℤ) - (nh.1 : ℤ)
    if dx = 1 ∧ dy = 0 then 0
    else if dx = 0 ∧ dy = 1 then 1
    else if dx = -1 ∧ dy = 0 then 2
    else if dx = 0 ∧ dy = -1 then 3
    else -1

/-! ### BFS planner (`BreadthFirstSearchAgent`)

Flat points are `ℤ` because the source appends `new_row * size + new_col`
with `new_row`/`new_col` possibly `-1` (Python negative indexing then wraps
when such a point is used as an array index). -/

/-- Python `point // size, point % size` on a possibly negative flat index:
floor division and sign-of-divisor remainder, as in `_point_to_row_col`. -/
def pointRowColZ (n : ℕ) (p : ℤ) : ℤ × ℤ := (Int.fdiv p n, Int.emod p n)

/-- Python 2-D array indexing key with wraparound for negative indices
(`arr[-1]` is the last row). -/
def arrKey (n : ℕ) (rc : ℤ × ℤ) : ℤ × ℤ := (Int.emod rc.1 n, Int.emod rc.2 n)

/-- Read a frame-0 board value at a (possibly negative) row/col, with Python
index wraparound. -/
def boardAt (n : ℕ) (board0 : ℕ → ℕ → ℕ) (r c : ℤ) : ℕ :=
  board0 (Int.emod r n).toNat (Int.emod c n).toNat

/-- `BreadthFirstSearchAgent._get_neighbors` (src/agent.py:951-964): the
4-neighborhood of `point`, keeping cells whose code is traversable (`board`,
`food` or `head`); the returned flat index is `new_row * size + new_col`
exactly as in the source. -/
def bfsNeighbors (n : ℕ) (hv : CellValues) (board0 : ℕ → ℕ → ℕ) (p : ℤ) : List ℤ :=
  [((-1 : ℤ), (0 : ℤ)), (1, 0), (0, 1), (0, -1)].filterMap (fun d =>
    if boardAt n board0 ((pointRowColZ n p).1 + d.1) ((pointRowColZ n p).2 + d.2) = hv.board ∨
        boardAt n board0 ((pointRowColZ n p).1 + d.1) ((pointRowColZ n p).2 + d.2) = hv.food ∨
        boardAt n board0 ((pointRowColZ n p).1 + d.1) ((pointRowColZ n p).2 + d.2) = hv.head
    then some (((pointRowColZ n p).1 + d.1) * n + ((pointRowColZ n p).2 + d.2))
    else none)

/-- BFS working state of `_get_shortest_path`: FIFO frontier, distance field
(`⊤` embeds the `np.inf` initialization), visited flags, found flag. -/
structure BfsState where
  queue : List ℤ
  dist : ℤ × ℤ → ℕ∞
  visited : ℤ × ℤ → Bool
  found : Bool

/-- `if(distances[row][col] > 1 + distances[curr_row][curr_col]): update`
(src/agent.py:995-997): relax the neighbor cell `pk` from the current cell
`ck`. -/
def bfsRelax (st : BfsState) (ck pk : ℤ × ℤ) : BfsState :=
  if 1 + st.dist ck < st.dist pk then
    { st with dist := fun x => if x = pk then 1 + st.dist ck else st.dist x }
  else st

/-- `if(visited[row][col] == 0): visited[curr_row][curr_col] = 1; append(p)`
(src/agent.py:1002-1004): enqueue an unvisited neighbor, marking — exactly as
the source does — the *current* cell `ck` visited. -/
def bfsEnqueue (st : BfsState) (ck pk : ℤ × ℤ) (p : ℤ) : BfsState :=
  if st.visited pk = false then
    { st with
      queue := st.queue ++ [p]
      visited := fun x => if x = ck then true else st.visited x }
  else st

/-- The inner `for p in n:` loop of `_get_shortest_path`
(src/agent.py:992-1004): relax each neighbor's distance, set `found` and break
when the neighbor's cell is food, else enqueue unvisited neighbors. -/
def scanNeighbors (n : ℕ) (hv : CellValues) (board0 : ℕ → ℕ → ℕ) (curr : ℤ) :
    List ℤ → BfsState → BfsState
  | [], st => st
  | p :: rest, st =>
    if boardAt n board0 (pointRowColZ n p).1 (pointRowColZ n p).2 = hv.food then
      { bfsRelax st (arrKey n (pointRowColZ n curr)) (arrKey n (pointRowColZ n p)) with
        found := true }
    else
      scanNeighbors n hv board0 curr rest
        (bfsEnqueue (bfsRelax st (arrKey n (pointRowColZ n curr))
            (arrKey n (pointRowColZ n p)))
          (arrKey n (pointRowColZ n curr)) (arrKey n (pointRowColZ n p)) p)

/-- The `while(not found)` loop of `_get_shortest_path`
(src/agent.py:979-1004); `fuel` bounds the dequeue iterations (the loop
terminates on every well-formed board; exhausted fuel returns the state as
is). -/
def bfsLoop (n : ℕ) (hv : CellValues) (board0 : ℕ → ℕ → ℕ) :
    ℕ → BfsState → BfsState
  | 0, st => st
  | fuel + 1, st =>
    if st.found then st
    else
      match st.queue with
      | [] => st
      | curr :: rest =>
        if bfsNeighbors n hv board0 curr = [] then
          bfsLoop n hv board0 fuel { st with queue := rest }
        else
          bfsLoop n hv board0 fuel
            (scanNeighbors n hv board0 curr (bfsNeighbors n hv board0 curr)
              { st with queue := rest })

/-- `(self._board_grid * (board == value)).sum()` (src/agent.py:969, 1006,
1038): the sum of flat indices over cells carrying the given code. -/
def locatePoint (n : ℕ) (board0 : ℕ → ℕ → ℕ) (v : ℕ) : ℤ :=
  ∑ r ∈ Finset.range n, ∑ c ∈ Finset.range n,
    if board0 r c = v then ((r * n + c : ℕ) : ℤ) else 0

/-- Initial BFS state (src/agent.py:970-978): the queue holds the head point,
whose cell has distance `0` and is visited. -/
def bfsInit (n : ℕ) (head : ℤ) : BfsState :=
  { queue := [head],
    dist := fun x => if x = arrKey n (pointRowColZ n head) then (0 : ℕ∞) else ⊤,
    visited := fun x => if x = arrKey n (pointRowColZ n head) then true else false,
    found := false }

/-- Backward reconstruction of `_get_shortest_path` (src/agent.py:1005-1024):
from the food cell, repeatedly append the first neighbor whose distance is
exactly one less, until distance `0` (the head); a cell of infinite distance
yields the empty path.  `fuel` bounds the iterations of the source's
`while(1)` loop (which spins forever when no neighbor qualifies; exhausted
fuel returns the path built so far). -/
def reconstructPath (n : ℕ) (hv : CellValues) (board0 : ℕ → ℕ → ℕ)
    (dist : ℤ × ℤ → ℕ∞) : ℕ → ℤ → List ℤ → List ℤ
  | 0, _, path => path
  | fuel + 1, curr, path =>
    if dist (arrKey n (pointRowColZ n curr)) = ⊤ then []
    else if dist (arrKey n (pointRowColZ n curr)) = 0 then path
    else
      match (bfsNeighbors n hv board0 curr).find? (fun p =>
        decide (dist (arrKey n (pointRowColZ n p)) ≠ ⊤ ∧
          dist (arrKey n (pointRowColZ n p)) =
            dist (arrKey n (pointRowColZ n curr)) - 1)) with
      | some p => reconstructPath n hv board0 dist fuel p (path ++ [p])
      | none => reconstructPath n hv board0 dist fuel curr path

/-- `BreadthFirstSearchAgent._get_shortest_path` (src/agent.py:966-1024) on a
single board: locate the head in frame 0, run BFS from it, and reconstruct
the path backwards from the food cell (the returned list runs from the food
cell back to the head). -/
def get_shortest_path (n : ℕ) (hv : CellValues) (board : ℕ → ℕ → ℕ → ℕ)
    (fuel : ℕ) : List ℤ :=
  reconstructPath n hv (fun r c => board r c 0)
    (bfsLoop n hv (fun r c => board r c 0) fuel
      (bfsInit n (locatePoint n (fun r c => board r c 0) hv.head))).dist
    fuel (locatePoint n (fun r c => board r c 0) hv.food)
    [locatePoint n (fun r c => board r c 0) hv.food]

/-- `BreadthFirstSearchAgent.move` (src/agent.py:1026-1061) on a batch of
boards: per board, the fixed fallback action `1` when the path is empty,
otherwise the displacement from the head to `path[-2]` mapped through the
fixed table (an unmatched vector leaves the `np.zeros` default `0`).  The
source also computes a previous-head position from frame 1, which does not
influence the returned action and is not modelled. -/
def bfsMove (n : ℕ) (hv : CellValues) (boards : List (ℕ → ℕ → ℕ → ℕ))
    (fuel : ℕ) : List ℤ :=
  boards.map (fun board =>
    let path := get_shortest_path n hv board fuel
    if path = [] then 1
    else
      let next_head := path.getD (path.length - 2) 0
      let curr_head := locatePoint n (fun r c => board r c 0) hv.head
      let dx := (pointRowColZ n next_head).2 - (pointRowColZ n curr_head).2
      let dy := (pointRowColZ n curr_head).1 - (pointRowColZ n next_head).1
      if dx = 1 ∧ dy = 0 then 0
      else if dx = 0 ∧ dy = 1 then 1
      else if dx = -1 ∧ dy = 0 then 2
      else if dx = 0 ∧ dy = -1 then 3
      else 0)

/-- Concrete 10×10 obstacle-free board: border walls (`1`), head (`3`) at
(1,1), food (`2`) at (1,3), free (`0`) elsewhere; all frames identical. -/
def bfsDemoBoard (r c _f : ℕ) : ℕ :=
  if r = 0 ∨ r = 9 ∨ c = 0 ∨ c = 9 then 1
  else if r = 1 ∧ c = 1 then 3
  else if r = 1 ∧ c = 3 then 2
  else 0

/-- Cell values used with the concrete BFS boards: board `0`, snake `1`,
food `2`, head `3`. -/
def bfsDemoValues : CellValues := ⟨0, 1, 2, 3⟩

/-- Concrete 5×5 board whose food is completely enclosed: border walls (`1`),
head (`3`) at (1,1) walled in, food (`2`) at (2,2) surrounded by body cells
(`1`). -/
def bfsEnclosedBoard (r c _f : ℕ) : ℕ :=
  if r = 0 ∨ r = 4 ∨ c = 0 ∨ c = 4 then 1
  else if r = 1 ∧ c = 1 then 3
  else if r = 2 ∧ c = 2 then 2
  else if (r = 1 ∧ c = 2) ∨ (r = 2 ∧ c = 1) ∨ (r = 2 ∧ c = 3) ∨ (r = 3 ∧ c = 2) then 1
  else 0

end SnakeRL

namespace SnakeRL

/-! ## Theorems -/

theorem row_col_to_point_div (n r c : ℕ) (hc : c < n) : row_col_to_point n r c / n = r := by
  unfold row_col_to_point
  have hn : 0 < n := Nat.pos_of_ne_zero (by omega)
  rw [Nat.mul_comm, Nat.mul_add_div hn, Nat.div_eq_of_lt hc]
  omega

theorem row_col_to_point_mod (n r c : ℕ) (hc : c < n) : row_col_to_point n r c % n = c := by
  unfold row_col_to_point
  rw [Nat.mul_comm, Nat.mul_add_mod, Nat.mod_eq_of_lt hc]

/-- C10: the coordinate conversions are mutually inverse — flattening the
row/col of a flat index `p < n²` recovers `p`, and un-flattening the flat
index of in-range `(row, col)` recovers `(row, col)`. -/
theorem point_row_col_roundtrip (n p row col : ℕ) (hn : 0 < n) (hp : p < n ^ 2)
    (hrow : row < n) (hcol : col < n) :
    row_col_to_point n (point_to_row_col n p).1 (point_to_row_col n p).2 = p ∧
    point_to_row_col n (row_col_to_point n row col) = (row, col) := by
  refine ⟨?_, ?_⟩
  · show p / n * n + p % n = p
    have h := Nat.div_add_mod p n
    calc p / n * n + p % n = n * (p / n) + p % n := by ring
    _ = p := h
  · unfold point_to_row_col
    rw [row_col_to_point_div n row col hcol, row_col_to_point_mod n row col hcol]

theorem point_row_col_roundtrip_witness :
    (0 < 10 ∧ 37 < 10 ^ 2 ∧ 3 < 10 ∧ 7 < 10) ∧
    (row_col_to_point 10 (point_to_row_col 10 37).1 (point_to_row_col 10 37).2 = 37 ∧
      point_to_row_col 10 (row_col_to_point 10 3 7) = (3, 7)) :=
  ⟨by decide, point_row_col_roundtrip 10 37 3 7 (by decide) (by decide) (by decide) (by decide)⟩

theorem argmax_fold_ub (k : ℕ) (v : Fin (k + 1) → WithBot ℚ) :
    ∀ (l : List (Fin (k + 1))) (b : Fin (k + 1)),
      v b ≤ v (l.foldl (fun best i => if v best < v i then i else best) b) ∧
      ∀ i ∈ l, v i ≤ v (l.foldl (fun best i => if v best < v i then i else best) b) := by
  intro l
  induction l with
  | nil => exact fun b => ⟨le_refl _, by simp⟩
  | cons a t ih =>
    intro b
    simp only [List.foldl_cons]
    by_cases h : v b < v a
    · rw [if_pos h]
      refine ⟨le_trans (le_of_lt h) (ih a).1, ?_⟩
      intro i hi
      rcases List.mem_cons.mp hi with h1 | hmem
      · rw [h1]; exact (ih a).1
      · exact (ih a).2 i hmem
    · rw [if_neg h]
      refine ⟨(ih b).1, ?_⟩
      intro i hi
      rcases List.mem_cons.mp hi with h1 | hmem
      · rw [h1]; exact le_trans (le_of_not_lt h) (ih b).1
      · exact (ih b).2 i hmem

/-- C1: `DeepQLearningAgent.move` never returns an action whose legality-mask
entry is not `1`, provided the row has at least one legal action: the arg-max
of the outputs masked to `-inf` lands on a mask-1 column. -/
theorem dqn_move_legal (k : ℕ) (model_outputs legal : Fin (k + 1) → ℚ)
    (h : ∃ i, legal i = 1) : legal (dqnMove k model_outputs legal) = 1 := by
  obtain ⟨i0, hi0⟩ := h
  by_contra hne
  have hub := (argmax_fold_ub k (maskedOutputs (k + 1) legal model_outputs)
    (List.finRange (k + 1)) 0).2 i0 (List.mem_finRange i0)
  have hres : maskedOutputs (k + 1) legal model_outputs (dqnMove k model_outputs legal) = ⊥ := by
    unfold maskedOutputs
    rw [if_neg hne]
  unfold dqnMove argmaxIdx at hne hres
  rw [hres] at hub
  have : maskedOutputs (k + 1) legal model_outputs i0 =
      ((model_outputs i0 : ℚ) : WithBot ℚ) := by
    unfold maskedOutputs
    rw [if_pos hi0]
  rw [this] at hub
  exact WithBot.coe_ne_bot (le_bot_iff.mp hub)

theorem dqn_move_legal_witness :
    (∃ i : Fin 3, (![0, 1, 0] : Fin 3 → ℚ) i = 1) ∧
    (![0, 1, 0] : Fin 3 → ℚ) (dqnMove 2 ![5, 1, 2] ![0, 1, 0]) = 1 :=
  ⟨⟨1, by decide⟩, dqn_move_legal 2 ![5, 1, 2] ![0, 1, 0] ⟨1, by decide⟩⟩

/-- C2: for a one-hot stored action the training target of
`DeepQLearningAgent.train_agent` keeps the online output in every column
except the taken action's column, which becomes
`discounted_reward = r + gamma * (max over the -10000-masked next outputs) * (1 - done)`. -/
theorem train_target_onehot (k : ℕ) (gamma r done : ℚ)
    (legal next_outputs a current_outputs : Fin (k + 1) → ℚ) (i : Fin (k + 1))
    (ha : ∀ j, a j = if j = i then 1 else 0) :
    ∀ j, qTarget k a current_outputs (discountedReward k gamma r done legal next_outputs) j =
      if j = i then r + gamma * maskedNextMax k legal next_outputs * (1 - done)
      else current_outputs j := by
  intro j
  unfold qTarget discountedReward
  rw [ha j]
  by_cases hj : j = i
  · rw [if_pos hj, if_pos hj]; ring
  · rw [if_neg hj, if_neg hj]; ring

theorem train_target_onehot_witness :
    (∀ j : Fin 3, (![0, 1, 0] : Fin 3 → ℚ) j = if j = 1 then 1 else 0) ∧
    (discountedReward 2 (1/2) 5 1 ![1, 1, 1] ![0, 0, 0] = 5 ∧
      ∀ j : Fin 3, qTarget 2 ![0, 1, 0] ![1, 2, 3]
          (discountedReward 2 (1/2) 5 1 ![1, 1, 1] ![0, 0, 0]) j =
        (![1, 5, 3] : Fin 3 → ℚ) j) := by
  have ha : ∀ j : Fin 3, (![0, 1, 0] : Fin 3 → ℚ) j = if j = 1 then 1 else 0 := by decide
  have hdr : discountedReward 2 (1/2) 5 1 ![1, 1, 1] ![0, 0, 0] = 5 := by
    unfold discountedReward; ring
  refine ⟨ha, hdr, ?_⟩
  intro j
  have h := train_target_onehot 2 (1/2) 5 1 ![1, 1, 1] ![0, 0, 0] ![0, 1, 0] ![1, 2, 3] 1 ha j
  rw [h]
  fin_cases j <;> simp [hdr]

theorem sum_exp_shifted_pos (k : ℕ) (model_outputs : Fin (k + 1) → ℝ) :
    0 < ∑ j, Real.exp (shiftedOutputs k model_outputs j) :=
  Finset.sum_pos (fun j _ => Real.exp_pos _) Finset.univ_nonempty

/-- C4: `get_action_proba` clips the outputs to `[-10, 10]`, subtracts the
per-row maximum, then applies softmax, and for every input row the result sums
to `1` and every entry is a well-defined real in `(0, 1]` (no NaN/Inf). -/
theorem get_action_proba_props (k : ℕ) (model_outputs : Fin (k + 1) → ℝ) :
    (∑ i, get_action_proba k model_outputs i) = 1 ∧
    ∀ i, 0 < get_action_proba k model_outputs i ∧ get_action_proba k model_outputs i ≤ 1 := by
  have hS := sum_exp_shifted_pos k model_outputs
  constructor
  · unfold get_action_proba
    rw [← Finset.sum_div, div_self (ne_of_gt hS)]
  · intro i
    constructor
    · exact div_pos (Real.exp_pos _) hS
    · unfold get_action_proba
      rw [div_le_one hS]
      exact Finset.single_le_sum (fun j _ => le_of_lt (Real.exp_pos _)) (Finset.mem_univ i)

theorem logSoftmaxRow_eq_log_softmaxRow (k : ℕ) (logits : Fin (k + 1) → ℝ) (j : Fin (k + 1)) :
    logSoftmaxRow k logits j = Real.log (softmaxRow k logits j) := by
  have hS : 0 < ∑ i, Real.exp (logits i) :=
    Finset.sum_pos (fun i _ => Real.exp_pos _) Finset.univ_nonempty
  unfold logSoftmaxRow softmaxRow
  rw [Real.log_div (Real.exp_ne_zero _) (ne_of_gt hS), Real.log_exp]

/-- C7: `PolicyGradientAgent.train_agent` ignores its `batch_size` parameter
(the loss over the whole buffer is the same for any two batch sizes), computes
`loss = -mean(takenLogProb * reward) - beta * entropy` where `takenLogProb` is
the log of the softmax probability of the taken action and the entropy comes
from the same logits, and the agent is constructed without a target network. -/
theorem pg_train_agent_spec (sigma : Type) (k : ℕ) (model : sigma → Fin (k + 1) → ℝ)
    (buffer : List (PGTransition sigma k)) (beta : ℝ) (bs1 bs2 : ℕ)
    (hbuf : buffer ≠ []) (hbeta : 0 ≤ beta) :
    pgTrainAgentLoss sigma k model buffer bs1 beta =
      pgTrainAgentLoss sigma k model buffer bs2 beta ∧
    pgTrainAgentLoss sigma k model buffer bs1 beta =
      -((buffer.map (fun t =>
          Real.log (softmaxRow k (model t.state) t.action) * t.reward)).sum /
        (buffer.length : ℝ)) -
      beta * ((buffer.map (fun t =>
          -∑ j, softmaxRow k (model t.state) j *
            Real.log (softmaxRow k (model t.state) j))).sum / (buffer.length : ℝ)) ∧
    policyGradientUsesTargetNet = false := by
  refine ⟨rfl, ?_, rfl⟩
  unfold pgTrainAgentLoss
  simp only [logSoftmaxRow_eq_log_softmaxRow]
  by_cases h : 0 < beta
  · rw [if_pos h]
  · rw [if_neg h]
    have hb0 : beta = 0 := le_antisymm (not_lt.mp h) hbeta
    rw [hb0]
    ring

theorem pg_train_agent_spec_witness :
    (([⟨(), 0, 1⟩] : List (PGTransition Unit 0)) ≠ [] ∧ (0 : ℝ) ≤ 0) ∧
    (pgTrainAgentLoss Unit 0 (fun _ _ => 0) [⟨(), 0, 1⟩] 32 0 =
        pgTrainAgentLoss Unit 0 (fun _ _ => 0) [⟨(), 0, 1⟩] 16 0 ∧
      pgTrainAgentLoss Unit 0 (fun _ _ => 0) [⟨(), 0, 1⟩] 32 0 =
        -((([⟨(), 0, 1⟩] : List (PGTransition Unit 0)).map (fun t =>
            Real.log (softmaxRow 0 ((fun _ _ => 0) t.state) t.action) * t.reward)).sum /
          (([⟨(), 0, 1⟩] : List (PGTransition Unit 0)).length : ℝ)) -
        (0 : ℝ) * ((([⟨(), 0, 1⟩] : List (PGTransition Unit 0)).map (fun t =>
            -∑ j, softmaxRow 0 ((fun _ _ => 0) t.state) j *
              Real.log (softmaxRow 0 ((fun _ _ => 0) t.state) j))).sum /
          (([⟨(), 0, 1⟩] : List (PGTransition Unit 0)).length : ℝ)) ∧
      policyGradientUsesTargetNet = false) :=
  ⟨⟨List.cons_ne_nil _ _, le_refl 0⟩,
    pg_train_agent_spec Unit 0 (fun _ _ => 0) [⟨(), 0, 1⟩] 0 32 16
      (List.cons_ne_nil _ _) (le_refl 0)⟩

/-! ### Hamiltonian cycle: arithmetic helpers -/

theorem flat_div (n r c : ℕ) (hc : c < n) : (r * n + c) / n = r :=
  row_col_to_point_div n r c hc

theorem flat_mod (n r c : ℕ) (hc : c < n) : (r * n + c) % n = c :=
  row_col_to_point_mod n r c hc

theorem m_sq_facts (m : ℕ) (h : 2 ≤ m) :
    m + (m - 1) * (m - 1) + (m - 1) = m * m ∧
    (m - 2) * (m - 1) + (m - 1) = (m - 1) * (m - 1) := by
  obtain ⟨M, rfl⟩ : ∃ M, m = M + 2 := ⟨m - 2, by omega⟩
  constructor
  · show M + 2 + (M + 1) * (M + 1) + (M + 1) = (M + 2) * (M + 2)
    ring
  · show M * (M + 1) + (M + 1) = (M + 1) * (M + 1)
    ring

theorem pred_mul_add (a b : ℕ) (ha : 1 ≤ a) : (a - 1) * b + b = a * b := by
  obtain ⟨A, rfl⟩ : ∃ A, a = A + 1 := ⟨a - 1, by omega⟩
  show A * b + b = (A + 1) * b
  ring

theorem nextSp_rc (n idx r c : ℕ) (hc : c < n) :
    nextSp n idx (r * n + c) =
      if r = 2 ∧ c = n - 2 then (r - 1) * n + c
      else if idx ≠ 1 ∧ r = 1 then r * n + (c - 1)
      else if c % 2 = 1 then
        (if r + 1 = n - 1 then r * n + (c + 1) else (r + 1) * n + c)
      else
        (if r - 1 = 1 then (r - 1 + 1) * n + (c + 1) else (r - 1) * n + c) := by
  unfold nextSp
  rw [flat_div n r c hc, flat_mod n r c hc, flat_div n (r + 1) c hc, flat_mod n (r + 1) c hc,
    flat_div n (r - 1) c hc, flat_mod n (r - 1) c hc]
  have e1 : r + 1 - 1 = r := by omega
  rw [e1]

/-! ### Closed form of the serpentine sweep -/

theorem cpM_seg1 (m i : ℕ) (h : i < m) : cyclePointM m i = (1 + i, 1) := by
  unfold cyclePointM
  rw [if_pos h]

theorem cpM_seg2 (m q k : ℕ) (h2 : 2 ≤ m) (hq : q < m - 1) (hk : k < m - 1) :
    cyclePointM m (m + (q * (m - 1) + k)) =
      if q % 2 = 0 then (m - k, 2 + q) else (2 + k, 2 + q) := by
  have hm1 : 0 < m - 1 := by omega
  have hqk : q * (m - 1) + k < (m - 1) * (m - 1) := by
    have hB := (m_sq_facts m h2).2
    have hq' : q * (m - 1) ≤ (m - 2) * (m - 1) := Nat.mul_le_mul_right _ (by omega)
    omega
  unfold cyclePointM
  rw [if_neg (by omega), if_pos (by omega)]
  have hsub : m + (q * (m - 1) + k) - m = q * (m - 1) + k := by omega
  rw [hsub]
  have hdiv : (q * (m - 1) + k) / (m - 1) = q := by
    rw [Nat.mul_comm q (m - 1), Nat.mul_add_div hm1, Nat.div_eq_of_lt hk]
    omega
  have hmod : (q * (m - 1) + k) % (m - 1) = k := by
    rw [Nat.mul_comm q (m - 1), Nat.mul_add_mod, Nat.mod_eq_of_lt hk]
  rw [hdiv, hmod]
  have hpar : (2 + q) % 2 = q % 2 := by omega
  rw [hpar]

theorem cpM_seg3 (m k : ℕ) : cyclePointM m (m + (m - 1) * (m - 1) + k) = (1, m - k) := by
  unfold cyclePointM
  rw [if_neg (by omega), if_neg (by omega)]
  have hsub : m + (m - 1) * (m - 1) + k - (m + (m - 1) * (m - 1)) = k := by omega
  rw [hsub]

theorem cpM_cases (m i : ℕ) (h2m : 2 ≤ m) (hi : i < m ^ 2) :
    (i < m ∧ cyclePointM m i = (1 + i, 1)) ∨
    (∃ q k, q < m - 1 ∧ k < m - 1 ∧ i = m + (q * (m - 1) + k) ∧
      cyclePointM m i = if q % 2 = 0 then (m - k, 2 + q) else (2 + k, 2 + q)) ∨
    (∃ k, k ≤ m - 2 ∧ i = m + (m - 1) * (m - 1) + k ∧ cyclePointM m i = (1, m - k)) := by
  have hpow : m ^ 2 = m * m := pow_two m
  have hA := (m_sq_facts m h2m).1
  by_cases h1 : i < m
  · exact Or.inl ⟨h1, cpM_seg1 m i h1⟩
  · by_cases hmid : i < m + (m - 1) * (m - 1)
    · have hm1 : 0 < m - 1 := by omega
      have hdm := Nat.div_add_mod (i - m) (m - 1)
      refine Or.inr (Or.inl ⟨(i - m) / (m - 1), (i - m) % (m - 1), ?_, Nat.mod_lt _ hm1, ?_, ?_⟩)
      · rw [Nat.div_lt_iff_lt_mul hm1]
        omega
      · rw [Nat.mul_comm ((i - m) / (m - 1)) (m - 1)]
        omega
      · have he : i = m + ((i - m) / (m - 1) * (m - 1) + (i - m) % (m - 1)) := by
          rw [Nat.mul_comm ((i - m) / (m - 1)) (m - 1)]
          omega
        calc cyclePointM m i
            = cyclePointM m (m + ((i - m) / (m - 1) * (m - 1) + (i - m) % (m - 1))) := by
              rw [← he]
          _ = _ := by
              rw [cpM_seg2 m _ _ h2m (by rw [Nat.div_lt_iff_lt_mul hm1]; omega)
                (Nat.mod_lt _ hm1)]
    · refine Or.inr (Or.inr ⟨i - (m + (m - 1) * (m - 1)), by omega, by omega, ?_⟩)
      have he : i = m + (m - 1) * (m - 1) + (i - (m + (m - 1) * (m - 1))) := by omega
      calc cyclePointM m i
          = cyclePointM m (m + (m - 1) * (m - 1) + (i - (m + (m - 1) * (m - 1)))) := by
            rw [← he]
        _ = _ := cpM_seg3 m _

theorem cpM_consec (m : ℕ) (h6 : 6 ≤ m) (hme : m % 2 = 0) (i : ℕ) (hi : i + 1 < m ^ 2) :
    (∃ r, 1 ≤ r ∧ r < m ∧ i = r - 1 ∧
      cyclePointM m i = (r, 1) ∧ cyclePointM m (i + 1) = (r + 1, 1)) ∨
    (i = m - 1 ∧ cyclePointM m i = (m, 1) ∧ cyclePointM m (i + 1) = (m, 2)) ∨
    (∃ c k, 2 ≤ c ∧ c ≤ m ∧ c % 2 = 0 ∧ 1 ≤ k ∧ k ≤ m - 2 ∧ m ≤ i ∧
      cyclePointM m i = (m - k + 1, c) ∧ cyclePointM m (i + 1) = (m - k, c)) ∨
    (∃ c k, 3 ≤ c ∧ c ≤ m ∧ c % 2 = 1 ∧ 1 ≤ k ∧ k ≤ m - 2 ∧ m ≤ i ∧
      cyclePointM m i = (k + 1, c) ∧ cyclePointM m (i + 1) = (k + 2, c)) ∨
    (∃ c, 2 ≤ c ∧ c ≤ m - 1 ∧ c % 2 = 0 ∧ m ≤ i ∧
      cyclePointM m i = (2, c) ∧ cyclePointM m (i + 1) = (2, c + 1)) ∨
    (∃ c, 3 ≤ c ∧ c ≤ m - 1 ∧ c % 2 = 1 ∧ m ≤ i ∧
      cyclePointM m i = (m, c) ∧ cyclePointM m (i + 1) = (m, c + 1)) ∨
    (m ≤ i ∧ cyclePointM m i = (2, m) ∧ cyclePointM m (i + 1) = (1, m)) ∨
    (∃ k, 1 ≤ k ∧ k ≤ m - 2 ∧ m ≤ i ∧
      cyclePointM m i = (1, m - k + 1) ∧ cyclePointM m (i + 1) = (1, m - k)) := by
  have h2m : 2 ≤ m := by omega
  have hpow : m ^ 2 = m * m := pow_two m
  have hAf := (m_sq_facts m h2m).1
  have hBf := (m_sq_facts m h2m).2
  by_cases hA1 : i + 1 < m
  · refine Or.inl ⟨i + 1, by omega, hA1, by omega, ?_, ?_⟩
    · rw [cpM_seg1 m i (by omega)]
      rw [Prod.mk.injEq]
      exact ⟨by omega, by omega⟩
    · rw [cpM_seg1 m (i + 1) hA1]
      rw [Prod.mk.injEq]
      exact ⟨by omega, by omega⟩
  by_cases hA2 : i + 1 = m
  · refine Or.inr (Or.inl ⟨by omega, ?_, ?_⟩)
    · rw [cpM_seg1 m i (by omega)]
      rw [Prod.mk.injEq]
      exact ⟨by omega, by omega⟩
    · have e0 : m + (0 * (m - 1) + 0) = i + 1 := by omega
      rw [← e0, cpM_seg2 m 0 0 h2m (by omega) (by omega)]
      norm_num
  by_cases hC : i + 1 < m + (m - 1) * (m - 1)
  · have hm1 : 0 < m - 1 := by omega
    have hdec : ∃ q k, q < m - 1 ∧ k < m - 1 ∧ i + 1 = m + (q * (m - 1) + k) := by
      have hdm := Nat.div_add_mod (i + 1 - m) (m - 1)
      refine ⟨(i + 1 - m) / (m - 1), (i + 1 - m) % (m - 1), ?_, Nat.mod_lt _ hm1, ?_⟩
      · rw [Nat.div_lt_iff_lt_mul hm1]
        omega
      · rw [Nat.mul_comm ((i + 1 - m) / (m - 1)) (m - 1)]
        omega
    obtain ⟨q, k, hqlt, hklt, hi1⟩ := hdec
    by_cases hk1 : 1 ≤ k
    · have hi0 : i = m + (q * (m - 1) + (k - 1)) := by omega
      have e1 := cpM_seg2 m q (k - 1) h2m hqlt (by omega)
      have e2 := cpM_seg2 m q k h2m hqlt hklt
      rw [← hi0] at e1
      rw [← hi1] at e2
      by_cases hq2 : q % 2 = 0
      · rw [if_pos hq2] at e1 e2
        refine Or.inr (Or.inr (Or.inl ⟨2 + q, k, by omega, by omega, by omega, hk1, by omega,
          by omega, ?_, ?_⟩))
        · rw [e1]; rw [Prod.mk.injEq]; exact ⟨by omega, by omega⟩
        · rw [e2]
      · rw [if_neg hq2] at e1 e2
        refine Or.inr (Or.inr (Or.inr (Or.inl ⟨2 + q, k, by omega, by omega, by omega, hk1,
          by omega, by omega, ?_, ?_⟩)))
        · rw [e1]; rw [Prod.mk.injEq]; exact ⟨by omega, by omega⟩
        · rw [e2]; rw [Prod.mk.injEq]; exact ⟨by omega, by omega⟩
    · have hk0 : k = 0 := by omega
      have hq1 : 1 ≤ q := by
        rcases Nat.eq_zero_or_pos q with h0 | h1
        · exfalso
          rw [h0, Nat.zero_mul] at hi1
          omega
        · exact h1
      have hpm := pred_mul_add q (m - 1) hq1
      have hi0 : i = m + ((q - 1) * (m - 1) + (m - 2)) := by omega
      have e1 := cpM_seg2 m (q - 1) (m - 2) h2m (by omega) (by omega)
      rw [← hi0] at e1
      have hi1' : i + 1 = m + (q * (m - 1) + 0) := by omega
      have e2 := cpM_seg2 m q 0 h2m hqlt (by omega)
      rw [← hi1'] at e2
      by_cases hq2 : q % 2 = 0
      · rw [if_neg (by omega)] at e1
        rw [if_pos hq2] at e2
        refine Or.inr (Or.inr (Or.inr (Or.inr (Or.inr (Or.inl ⟨q + 1, by omega, by omega,
          by omega, by omega, ?_, ?_⟩)))))
        · rw [e1]; rw [Prod.mk.injEq]; exact ⟨by omega, by omega⟩
        · rw [e2]; rw [Prod.mk.injEq]; exact ⟨by omega, by omega⟩
      · rw [if_pos (by omega)] at e1
        rw [if_neg hq2] at e2
        refine Or.inr (Or.inr (Or.inr (Or.inr (Or.inl ⟨q + 1, by omega, by omega, by omega,
          by omega, ?_, ?_⟩))))
        · rw [e1]; rw [Prod.mk.injEq]; exact ⟨by omega, by omega⟩
        · rw [e2]; rw [Prod.mk.injEq]; exact ⟨by omega, by omega⟩
  by_cases hD : i + 1 = m + (m - 1) * (m - 1)
  · refine Or.inr (Or.inr (Or.inr (Or.inr (Or.inr (Or.inr (Or.inl ⟨by omega, ?_, ?_⟩))))))
    · have hi0 : i = m + ((m - 2) * (m - 1) + (m - 2)) := by omega
      have e1 := cpM_seg2 m (m - 2) (m - 2) h2m (by omega) (by omega)
      rw [← hi0] at e1
      rw [if_pos (by omega)] at e1
      rw [e1]; rw [Prod.mk.injEq]; exact ⟨by omega, by omega⟩
    · have e2 := cpM_seg3 m 0
      have h0 : m + (m - 1) * (m - 1) + 0 = i + 1 := by omega
      rw [h0] at e2
      rw [e2]; rw [Prod.mk.injEq]; exact ⟨by omega, by omega⟩
  · refine Or.inr (Or.inr (Or.inr (Or.inr (Or.inr (Or.inr (Or.inr
      ⟨i + 1 - (m + (m - 1) * (m - 1)), by omega, by omega, by omega, ?_, ?_⟩))))))
    · have e1 := cpM_seg3 m (i - (m + (m - 1) * (m - 1)))
      have h0 : m + (m - 1) * (m - 1) + (i - (m + (m - 1) * (m - 1))) = i := by omega
      rw [h0] at e1
      rw [e1]; rw [Prod.mk.injEq]; exact ⟨by omega, by omega⟩
    · have e2 := cpM_seg3 m (i + 1 - (m + (m - 1) * (m - 1)))
      have h0 : m + (m - 1) * (m - 1) + (i + 1 - (m + (m - 1) * (m - 1))) = i + 1 := by omega
      rw [h0] at e2
      rw [e2]

theorem nextSp_cpFlat (n : ℕ) (h8 : 8 ≤ n) (h2 : n % 2 = 0) (idx : ℕ)
    (h1 : 1 ≤ idx) (hlt : idx < (n - 2) ^ 2) :
    nextSp n idx (cpFlat n (idx - 1)) = cpFlat n idx := by
  have h6 : 6 ≤ n - 2 := by omega
  have hme : (n - 2) % 2 = 0 := by omega
  have hcon := cpM_consec (n - 2) h6 hme (idx - 1) (by omega)
  have hidx : idx - 1 + 1 = idx := by omega
  rw [hidx] at hcon
  unfold cpFlat
  rcases hcon with ⟨r, hr1, hrm, hir, e1, e2⟩ | ⟨hib, e1, e2⟩ |
    ⟨c, k, hc2, hcm, hce, hk1, hk2, hmi, e1, e2⟩ |
    ⟨c, k, hc3, hcm, hco, hk1, hk2, hmi, e1, e2⟩ |
    ⟨c, hc2, hcm, hce, hmi, e1, e2⟩ | ⟨c, hc3, hcm, hco, hmi, e1, e2⟩ |
    ⟨hmi, e1, e2⟩ | ⟨k, hk1, hk2, hmi, e1, e2⟩
  · simp only [e1, e2]
    rw [nextSp_rc n idx r 1 (by omega)]
    rw [if_neg (by omega), if_neg (by omega), if_pos (show (1 : ℕ) % 2 = 1 by norm_num),
      if_neg (by omega)]
  · simp only [e1, e2]
    rw [nextSp_rc n idx (n - 2) 1 (by omega)]
    rw [if_neg (by omega), if_neg (by omega), if_pos (show (1 : ℕ) % 2 = 1 by norm_num),
      if_pos (by omega)]
  · simp only [e1, e2]
    rw [nextSp_rc n idx (n - 2 - k + 1) c (by omega)]
    rw [if_neg (by omega), if_neg (by omega), if_neg (by omega), if_neg (by omega)]
    have hr : n - 2 - k + 1 - 1 = n - 2 - k := by omega
    rw [hr]
  · simp only [e1, e2]
    rw [nextSp_rc n idx (k + 1) c (by omega)]
    rw [if_neg (by omega), if_neg (by omega), if_pos hco, if_neg (by omega)]
  · simp only [e1, e2]
    rw [nextSp_rc n idx 2 c (by omega)]
    rw [if_neg (by omega), if_neg (by omega), if_neg (by omega),
      if_pos (show (2 : ℕ) - 1 = 1 by norm_num)]
  · simp only [e1, e2]
    rw [nextSp_rc n idx (n - 2) c (by omega)]
    rw [if_neg (by omega), if_neg (by omega), if_pos hco, if_pos (by omega)]
  · simp only [e1, e2]
    rw [nextSp_rc n idx 2 (n - 2) (by omega)]
    rw [if_pos (show 2 = 2 ∧ n - 2 = n - 2 from ⟨rfl, rfl⟩)]
  · simp only [e1, e2]
    rw [nextSp_rc n idx 1 (n - 2 - k + 1) (by omega)]
    rw [if_neg (by omega), if_pos (show idx ≠ 1 ∧ (1 : ℕ) = 1 from ⟨by omega, rfl⟩)]
    have hr : n - 2 - k + 1 - 1 = n - 2 - k := by omega
    rw [hr]

theorem cycleGo_spec (n : ℕ) (h8 : 8 ≤ n) (h2 : n % 2 = 0) :
    ∀ fuel idx, 1 ≤ idx → idx + fuel = (n - 2) ^ 2 →
      cycleGo n fuel idx (cpFlat n (idx - 1)) = (List.range' idx fuel).map (cpFlat n) := by
  intro fuel
  induction fuel with
  | zero => intro idx _ _; rfl
  | succ f ih =>
    intro idx hidx hsum
    simp only [cycleGo]
    rw [if_neg (by omega)]
    rw [nextSp_cpFlat n h8 h2 idx hidx (by omega)]
    rw [List.range'_succ, List.map_cons]
    have hrec := ih (idx + 1) (by omega) (by omega)
    have he : idx + 1 - 1 = idx := by omega
    rw [he] at hrec
    rw [hrec]

theorem cycleList_closed (n : ℕ) (h8 : 8 ≤ n) (h2 : n % 2 = 0) :
    cycleList n = (List.range ((n - 2) ^ 2)).map (cpFlat n) := by
  unfold cycleList
  obtain ⟨F, hF⟩ : ∃ F, (n - 2) ^ 2 = F + 1 := by
    have hpos : 0 < (n - 2) ^ 2 := by
      have h6 : 0 < n - 2 := by omega
      exact pow_pos h6 2
    exact ⟨(n - 2) ^ 2 - 1, by omega⟩
  rw [hF]
  simp only [cycleGo]
  rw [if_pos trivial]
  have h0 : 1 * n + 1 = cpFlat n 0 := by
    unfold cpFlat
    rw [cpM_seg1 (n - 2) 0 (by omega)]
  rw [h0]
  have hrec := cycleGo_spec n h8 h2 F 1 (le_refl 1) (by omega)
  norm_num at hrec
  rw [hrec, List.range_eq_range', List.range'_succ, List.map_cons]

theorem cpM_bounds (m i : ℕ) (h6 : 6 ≤ m) (hi : i < m ^ 2) :
    1 ≤ (cyclePointM m i).1 ∧ (cyclePointM m i).1 ≤ m ∧
    1 ≤ (cyclePointM m i).2 ∧ (cyclePointM m i).2 ≤ m := by
  rcases cpM_cases m i (by omega) hi with ⟨h1, e⟩ | ⟨q, k, hq, hk, hieq, e⟩ | ⟨k, hk, hieq, e⟩
  · simp only [e]
    omega
  · by_cases hp : q % 2 = 0
    · rw [if_pos hp] at e
      simp only [e]
      omega
    · rw [if_neg hp] at e
      simp only [e]
      omega
  · simp only [e]
    omega

theorem cpM_inj (m : ℕ) (h6 : 6 ≤ m) (i1 : ℕ) (hi1 : i1 < m ^ 2) (i2 : ℕ) (hi2 : i2 < m ^ 2)
    (heq : cyclePointM m i1 = cyclePointM m i2) : i1 = i2 := by
  rcases cpM_cases m i1 (by omega) hi1 with ⟨ha1, e1⟩ | ⟨q1, k1, hq1, hk1, hie1, e1⟩ |
    ⟨k1, hk1, hie1, e1⟩ <;>
  rcases cpM_cases m i2 (by omega) hi2 with ⟨ha2, e2⟩ | ⟨q2, k2, hq2, hk2, hie2, e2⟩ |
    ⟨k2, hk2, hie2, e2⟩
  · rw [e1, e2, Prod.mk.injEq] at heq
    omega
  · by_cases hp : q2 % 2 = 0
    · rw [if_pos hp] at e2; rw [e1, e2, Prod.mk.injEq] at heq; omega
    · rw [if_neg hp] at e2; rw [e1, e2, Prod.mk.injEq] at heq; omega
  · rw [e1, e2, Prod.mk.injEq] at heq
    omega
  · by_cases hp : q1 % 2 = 0
    · rw [if_pos hp] at e1; rw [e1, e2, Prod.mk.injEq] at heq; omega
    · rw [if_neg hp] at e1; rw [e1, e2, Prod.mk.injEq] at heq; omega
  · by_cases hp1 : q1 % 2 = 0 <;> by_cases hp2 : q2 % 2 = 0
    · rw [if_pos hp1] at e1; rw [if_pos hp2] at e2; rw [e1, e2, Prod.mk.injEq] at heq
      obtain ⟨hf, hs⟩ := heq
      obtain rfl : q1 = q2 := by omega
      omega
    · rw [if_pos hp1] at e1; rw [if_neg hp2] at e2; rw [e1, e2, Prod.mk.injEq] at heq
      omega
    · rw [if_neg hp1] at e1; rw [if_pos hp2] at e2; rw [e1, e2, Prod.mk.injEq] at heq
      omega
    · rw [if_neg hp1] at e1; rw [if_neg hp2] at e2; rw [e1, e2, Prod.mk.injEq] at heq
      obtain ⟨hf, hs⟩ := heq
      obtain rfl : q1 = q2 := by omega
      omega
  · by_cases hp : q1 % 2 = 0
    · rw [if_pos hp] at e1; rw [e1, e2, Prod.mk.injEq] at heq; omega
    · rw [if_neg hp] at e1; rw [e1, e2, Prod.mk.injEq] at heq; omega
  · rw [e1, e2, Prod.mk.injEq] at heq
    omega
  · by_cases hp : q2 % 2 = 0
    · rw [if_pos hp] at e2; rw [e1, e2, Prod.mk.injEq] at heq; omega
    · rw [if_neg hp] at e2; rw [e1, e2, Prod.mk.injEq] at heq; omega
  · rw [e1, e2, Prod.mk.injEq] at heq
    omega

theorem cpM_exists (m : ℕ) (h6 : 6 ≤ m) (r c : ℕ) (hr1 : 1 ≤ r) (hrm : r ≤ m)
    (hc1 : 1 ≤ c) (hcm : c ≤ m) : ∃ i, i < m ^ 2 ∧ cyclePointM m i = (r, c) := by
  have hpow : m ^ 2 = m * m := pow_two m
  have hAf := (m_sq_facts m (by omega)).1
  have hBf := (m_sq_facts m (by omega)).2
  by_cases hc : c = 1
  · refine ⟨r - 1, by omega, ?_⟩
    rw [cpM_seg1 m (r - 1) (by omega), Prod.mk.injEq]
    exact ⟨by omega, by omega⟩
  by_cases hrr : r = 1
  · refine ⟨m + (m - 1) * (m - 1) + (m - c), by omega, ?_⟩
    rw [cpM_seg3 m (m - c), Prod.mk.injEq]
    exact ⟨by omega, by omega⟩
  · by_cases hq2 : (c - 2) % 2 = 0
    · refine ⟨m + ((c - 2) * (m - 1) + (m - r)), ?_, ?_⟩
      · have hmul : (c - 2) * (m - 1) ≤ (m - 2) * (m - 1) := Nat.mul_le_mul_right _ (by omega)
        omega
      · rw [cpM_seg2 m (c - 2) (m - r) (by omega) (by omega) (by omega)]
        rw [if_pos hq2, Prod.mk.injEq]
        exact ⟨by omega, by omega⟩
    · refine ⟨m + ((c - 2) * (m - 1) + (r - 2)), ?_, ?_⟩
      · have hmul : (c - 2) * (m - 1) ≤ (m - 2) * (m - 1) := Nat.mul_le_mul_right _ (by omega)
        omega
      · rw [cpM_seg2 m (c - 2) (r - 2) (by omega) (by omega) (by omega)]
        rw [if_neg hq2, Prod.mk.injEq]
        exact ⟨by omega, by omega⟩

theorem p2rc_cpFlat (n : ℕ) (h8 : 8 ≤ n) (i : ℕ) (hi : i < (n - 2) ^ 2) :
    point_to_row_col n (cpFlat n i) = cyclePointM (n - 2) i := by
  have hb := cpM_bounds (n - 2) i (by omega) hi
  unfold point_to_row_col cpFlat
  rw [flat_div n _ _ (by omega), flat_mod n _ _ (by omega)]

theorem cycleList_length (n : ℕ) (h8 : 8 ≤ n) (h2 : n % 2 = 0) :
    (cycleList n).length = (n - 2) ^ 2 := by
  rw [cycleList_closed n h8 h2, List.length_map, List.length_range]

theorem cycleList_getDh (n : ℕ) (h8 : 8 ≤ n) (h2 : n % 2 = 0) (i : ℕ) (hi : i < (n - 2) ^ 2) :
    (cycleList n).getD i 0 = cpFlat n i := by
  rw [cycleList_closed n h8 h2, List.getD_eq_getElem?_getD, List.getElem?_map,
    List.getElem?_range hi]
  rfl

theorem cycleList_nodup (n : ℕ) (h8 : 8 ≤ n) (h2 : n % 2 = 0) : (cycleList n).Nodup := by
  rw [cycleList_closed n h8 h2]
  refine List.Nodup.map_on ?_ (List.nodup_range _)
  intro x hx y hy hxy
  rw [List.mem_range] at hx hy
  have hbx := cpM_bounds (n - 2) x (by omega) hx
  have hby := cpM_bounds (n - 2) y (by omega) hy
  apply cpM_inj (n - 2) (by omega) x hx y hy
  unfold cpFlat at hxy
  have h1 : (cyclePointM (n - 2) x).1 = (cyclePointM (n - 2) y).1 := by
    have dx := flat_div n (cyclePointM (n - 2) x).1 (cyclePointM (n - 2) x).2 (by omega)
    have dy := flat_div n (cyclePointM (n - 2) y).1 (cyclePointM (n - 2) y).2 (by omega)
    rw [← dx, ← dy, hxy]
  have h2' : (cyclePointM (n - 2) x).2 = (cyclePointM (n - 2) y).2 := by
    have dx := flat_mod n (cyclePointM (n - 2) x).1 (cyclePointM (n - 2) x).2 (by omega)
    have dy := flat_mod n (cyclePointM (n - 2) y).1 (cyclePointM (n - 2) y).2 (by omega)
    rw [← dx, ← dy, hxy]
  exact Prod.ext h1 h2'

theorem cycleList_count (n : ℕ) (h8 : 8 ≤ n) (h2 : n % 2 = 0) (p : ℕ)
    (hp : isInteriorCell n p) : (cycleList n).count p = 1 := by
  obtain ⟨hr1, hr2, hc1, hc2⟩ := hp
  obtain ⟨i, hi, he⟩ := cpM_exists (n - 2) (by omega) (p / n) (p % n) hr1 hr2 hc1 hc2
  have hmem : p ∈ cycleList n := by
    rw [cycleList_closed n h8 h2]
    refine List.mem_map.mpr ⟨i, List.mem_range.mpr hi, ?_⟩
    unfold cpFlat
    rw [he]
    show p / n * n + p % n = p
    have hdm := Nat.div_add_mod p n
    calc p / n * n + p % n = n * (p / n) + p % n := by ring
    _ = p := hdm
  exact List.count_eq_one_of_mem (cycleList_nodup n h8 h2) hmem

theorem cpM_adj (m : ℕ) (h6 : 6 ≤ m) (hme : m % 2 = 0) (i : ℕ) (hi : i + 1 < m ^ 2) :
    manhattanRC (cyclePointM m i) (cyclePointM m (i + 1)) = 1 := by
  rcases cpM_consec m h6 hme i hi with ⟨r, _, _, _, e1, e2⟩ | ⟨_, e1, e2⟩ |
    ⟨c, k, _, _, _, _, _, _, e1, e2⟩ | ⟨c, k, _, _, _, _, _, _, e1, e2⟩ |
    ⟨c, _, _, _, _, e1, e2⟩ | ⟨c, _, _, _, _, e1, e2⟩ | ⟨_, e1, e2⟩ |
    ⟨k, _, _, _, e1, e2⟩ <;>
  simp only [e1, e2, manhattanRC] <;> omega

theorem cpM_wrap (m : ℕ) (h6 : 6 ≤ m) :
    manhattanRC (cyclePointM m (m ^ 2 - 1)) (cyclePointM m 0) = 1 := by
  have hpow : m ^ 2 = m * m := pow_two m
  have hAf := (m_sq_facts m (by omega)).1
  have e0 := cpM_seg1 m 0 (by omega)
  have e1 := cpM_seg3 m (m - 2)
  have hidx : m + (m - 1) * (m - 1) + (m - 2) = m ^ 2 - 1 := by omega
  rw [hidx] at e1
  simp only [e0, e1, manhattanRC]
  omega

/-- C3: for every even board side `n ≥ 8`, the cycle built by the serpentine
sweep `_get_cycle_square` has length exactly `(n-2)²`, contains every interior
cell (rows and columns `1..n-2`) exactly once, and every pair of consecutive
cycle cells — including the wraparound pair from the last back to the first —
is at Manhattan distance 1. -/
theorem cycle_square_spec (n : ℕ) (h2 : n % 2 = 0) (h8 : 8 ≤ n) :
    (cycleList n).length = (n - 2) ^ 2 ∧
    (∀ p, isInteriorCell n p → (cycleList n).count p = 1) ∧
    (∀ i, i < (n - 2) ^ 2 →
      manhattanFlat n ((cycleList n).getD i 0)
        ((cycleList n).getD ((i + 1) % (n - 2) ^ 2) 0) = 1) := by
  refine ⟨cycleList_length n h8 h2, fun p hp => cycleList_count n h8 h2 p hp, ?_⟩
  intro i hi
  have hN : 0 < (n - 2) ^ 2 := by
    have h6 : 0 < n - 2 := by omega
    exact pow_pos h6 2
  unfold manhattanFlat
  rw [cycleList_getDh n h8 h2 i hi, cycleList_getDh n h8 h2 _ (Nat.mod_lt _ hN)]
  rw [p2rc_cpFlat n h8 i hi, p2rc_cpFlat n h8 _ (Nat.mod_lt _ hN)]
  by_cases hlast : i + 1 < (n - 2) ^ 2
  · rw [Nat.mod_eq_of_lt hlast]
    exact cpM_adj (n - 2) (by omega) (by omega) i hlast
  · have hEnd : i + 1 = (n - 2) ^ 2 := by omega
    rw [hEnd, Nat.mod_self]
    have hw := cpM_wrap (n - 2) (by omega)
    have hIdx : (n - 2) ^ 2 - 1 = i := by omega
    rw [hIdx] at hw
    exact hw

theorem cycle_square_spec_witness :
    (8 % 2 = 0 ∧ 8 ≤ 8) ∧
    ((cycleList 8).length = (8 - 2) ^ 2 ∧
      (∀ p, isInteriorCell 8 p → (cycleList 8).count p = 1) ∧
      (∀ i, i < (8 - 2) ^ 2 →
        manhattanFlat 8 ((cycleList 8).getD i 0)
          ((cycleList 8).getD ((i + 1) % (8 - 2) ^ 2) 0) = 1)) :=
  ⟨⟨rfl, le_refl 8⟩, cycle_square_spec 8 rfl (le_refl 8)⟩

/-- C9: constructing a `HamiltonianCycleAgent` succeeds exactly when the board
side length is even; an odd side fails the constructor's eager assertion and
no agent (cycle) is produced. -/
theorem hamiltonian_init_ok_iff (board_size : ℕ) :
    (∃ cycle, hamiltonianCycleAgentInit board_size = Except.ok cycle) ↔
    board_size % 2 = 0 := by
  unfold hamiltonianCycleAgentInit
  by_cases h : board_size % 2 = 0
  · rw [if_pos h]
    exact ⟨fun _ => h, fun _ => ⟨cycleList board_size, rfl⟩⟩
  · rw [if_neg h]
    constructor
    · rintro ⟨c, hc⟩
      exact Except.noConfusion hc
    · intro hh
      exact absurd hh h

theorem headPointNat_eq (n : ℕ) (board : ℕ → ℕ → ℕ → ℕ) (hv : CellValues) (r0 c0 : ℕ)
    (hr : r0 < n) (hc : c0 < n)
    (h : ∀ r c, r < n → c < n → (board r c 0 = hv.head ↔ (r, c) = (r0, c0))) :
    headPointNat n board hv = r0 * n + c0 := by
  unfold headPointNat
  have hstep : ∀ r ∈ Finset.range n,
      (∑ c ∈ Finset.range n, if board r c 0 = hv.head then r * n + c else 0) =
      if r = r0 then r0 * n + c0 else 0 := by
    intro r hr'
    rw [Finset.mem_range] at hr'
    by_cases hrr : r = r0
    · subst hrr
      have hinner : ∀ c ∈ Finset.range n,
          (if board r c 0 = hv.head then r * n + c else 0) =
          if c = c0 then r * n + c0 else 0 := by
        intro c hc'
        rw [Finset.mem_range] at hc'
        by_cases hcc : c = c0
        · subst hcc
          rw [if_pos ((h r c hr' hc').mpr rfl), if_pos rfl]
        · rw [if_neg ?_, if_neg hcc]
          intro hb
          have hp := (h r c hr' hc').mp hb
          rw [Prod.mk.injEq] at hp
          exact hcc hp.2
      rw [Finset.sum_congr rfl hinner,
        Finset.sum_ite_eq' (Finset.range n) c0 (fun _ => r * n + c0),
        if_pos (Finset.mem_range.mpr hc), if_pos rfl]
    · rw [if_neg hrr]
      apply Finset.sum_eq_zero
      intro c hc'
      rw [Finset.mem_range] at hc'
      rw [if_neg]
      intro hb
      have hp := (h r c hr' hc').mp hb
      rw [Prod.mk.injEq] at hp
      exact hrr hp.1
  rw [Finset.sum_congr rfl hstep,
    Finset.sum_ite_eq' (Finset.range n) r0 (fun _ => r0 * n + c0),
    if_pos (Finset.mem_range.mpr hr)]

/-- C8: when the head lies on the constructed cycle at position `i` and the
cycle-predecessor cell is occupied (non-zero in frame 0),
`HamiltonianCycleAgent.move` maps the displacement to the cycle-successor
through the fixed table and returns a valid action in `{0, 1, 2, 3}` — the
unmatched-vector branch (`-1`) is never taken on-cycle. -/
theorem ham_move_valid (n : ℕ) (h2 : n % 2 = 0) (h8 : 8 ≤ n)
    (board : ℕ → ℕ → ℕ → ℕ) (hv : CellValues) (i : ℕ) (hi : i < (n - 2) ^ 2)
    (hhead : ∀ r c, r < n → c < n →
      (board r c 0 = hv.head ↔ (r, c) = cyclePointM (n - 2) i))
    (hocc : board ((cycleList n).getD ((i + (n - 2) ^ 2 - 1) % (n - 2) ^ 2) 0 / n)
        ((cycleList n).getD ((i + (n - 2) ^ 2 - 1) % (n - 2) ^ 2) 0 % n) 0 ≠ 0) :
    hamMove n board hv ∈ ({0, 1, 2, 3} : Set ℤ) := by
  have hN : 0 < (n - 2) ^ 2 := by
    have h6 : 0 < n - 2 := by omega
    exact pow_pos h6 2
  have hb := cpM_bounds (n - 2) i (by omega) hi
  have hcurr : headPointNat n board hv = cpFlat n i := by
    apply headPointNat_eq n board hv (cyclePointM (n - 2) i).1 (cyclePointM (n - 2) i).2
      (by omega) (by omega)
    exact fun r c hr hc => hhead r c hr hc
  have hlen := cycleList_length n h8 h2
  have hnodup := cycleList_nodup n h8 h2
  have hlt : i < (cycleList n).length := by rw [hlen]; exact hi
  have hindex : (cycleList n).indexOf (cpFlat n i) = i := by
    have h1 := List.indexOf_getElem hnodup i hlt
    have h2g : (cycleList n)[i] = cpFlat n i := by
      rw [← cycleList_getDh n h8 h2 i hi, List.getD_eq_getElem?_getD,
        List.getElem?_eq_getElem hlt]
      rfl
    rw [h2g] at h1
    exact h1
  have hnext : (cycleList n).getD ((i + 1) % (n - 2) ^ 2) 0 =
      cpFlat n ((i + 1) % (n - 2) ^ 2) := cycleList_getDh n h8 h2 _ (Nat.mod_lt _ hN)
  have hadj : manhattanRC (cyclePointM (n - 2) i)
      (cyclePointM (n - 2) ((i + 1) % (n - 2) ^ 2)) = 1 := by
    by_cases hlast : i + 1 < (n - 2) ^ 2
    · rw [Nat.mod_eq_of_lt hlast]
      exact cpM_adj (n - 2) (by omega) (by omega) i hlast
    · have hEnd : i + 1 = (n - 2) ^ 2 := by omega
      rw [hEnd, Nat.mod_self]
      have hw := cpM_wrap (n - 2) (by omega)
      have hIdx : (n - 2) ^ 2 - 1 = i := by omega
      rw [hIdx] at hw
      exact hw
  simp only [hamMove]
  rw [hcurr, hindex]
  rw [if_neg hocc]
  rw [hnext, p2rc_cpFlat n h8 i hi, p2rc_cpFlat n h8 _ (Nat.mod_lt _ hN)]
  unfold manhattanRC at hadj
  rcases (show ((cyclePointM (n - 2) ((i + 1) % (n - 2) ^ 2)).2 : ℤ) -
        ((cyclePointM (n - 2) i).2 : ℤ) = 1 ∧
        ((cyclePointM (n - 2) i).1 : ℤ) - ((cyclePointM (n - 2) ((i + 1) % (n - 2) ^ 2)).1 : ℤ)
          = 0 ∨
      ((cyclePointM (n - 2) ((i + 1) % (n - 2) ^ 2)).2 : ℤ) -
        ((cyclePointM (n - 2) i).2 : ℤ) = 0 ∧
        ((cyclePointM (n - 2) i).1 : ℤ) - ((cyclePointM (n - 2) ((i + 1) % (n - 2) ^ 2)).1 : ℤ)
          = 1 ∨
      ((cyclePointM (n - 2) ((i + 1) % (n - 2) ^ 2)).2 : ℤ) -
        ((cyclePointM (n - 2) i).2 : ℤ) = -1 ∧
        ((cyclePointM (n - 2) i).1 : ℤ) - ((cyclePointM (n - 2) ((i + 1) % (n - 2) ^ 2)).1 : ℤ)
          = 0 ∨
      ((cyclePointM (n - 2) ((i + 1) % (n - 2) ^ 2)).2 : ℤ) -
        ((cyclePointM (n - 2) i).2 : ℤ) = 0 ∧
        ((cyclePointM (n - 2) i).1 : ℤ) - ((cyclePointM (n - 2) ((i + 1) % (n - 2) ^ 2)).1 : ℤ)
          = -1 from by omega) with ⟨hdx, hdy⟩ | ⟨hdx, hdy⟩ | ⟨hdx, hdy⟩ | ⟨hdx, hdy⟩
  · rw [if_pos ⟨hdx, hdy⟩]
    simp
  · rw [if_neg (by omega), if_pos ⟨hdx, hdy⟩]
    simp
  · rw [if_neg (by omega), if_neg (by omega), if_pos ⟨hdx, hdy⟩]
    simp
  · rw [if_neg (by omega), if_neg (by omega), if_neg (by omega), if_pos ⟨hdx, hdy⟩]
    simp

set_option maxRecDepth 20000 in
theorem ham_move_valid_witness :
    ((0 : ℕ) < (8 - 2) ^ 2 ∧
      (∀ r < 8, ∀ c < 8,
        (hamDemoBoard r c 0 = hamDemoValues.head ↔ (r, c) = cyclePointM (8 - 2) 0)) ∧
      hamDemoBoard ((cycleList 8).getD ((0 + (8 - 2) ^ 2 - 1) % (8 - 2) ^ 2) 0 / 8)
        ((cycleList 8).getD ((0 + (8 - 2) ^ 2 - 1) % (8 - 2) ^ 2) 0 % 8) 0 ≠ 0) ∧
    hamMove 8 hamDemoBoard hamDemoValues ∈ ({0, 1, 2, 3} : Set ℤ) := by
  have hh : ∀ r < 8, ∀ c < 8,
      (hamDemoBoard r c 0 = hamDemoValues.head ↔ (r, c) = cyclePointM (8 - 2) 0) := by decide
  exact ⟨⟨by decide, hh, by decide⟩,
    ham_move_valid 8 rfl (le_refl 8) hamDemoBoard hamDemoValues 0 (by decide)
      (fun r c hr hc => hh r hr c hc) (by decide)⟩

/-! ### BFS theorems -/

/-- C5: on the obstacle-free 10×10 board with head (1,1) and food (1,3),
`_get_shortest_path` returns the length-3 path food cell (flat 13), cell
(1,2) (flat 12), head cell (flat 11), and `move` on the one-board batch
returns action `0` (displacement toward increasing column). -/
theorem bfs_demo_path_move :
    get_shortest_path 10 bfsDemoValues bfsDemoBoard 100 = [13, 12, 11] ∧
    bfsMove 10 bfsDemoValues [bfsDemoBoard] 100 = [0] := by
  constructor <;> decide

theorem bfsRelax_found (st : BfsState) (ck pk : ℤ × ℤ) :
    (bfsRelax st ck pk).found = st.found := by
  unfold bfsRelax
  split <;> rfl

theorem bfsRelax_dist_ne (st : BfsState) (ck pk fk : ℤ × ℤ) (h : fk ≠ pk) :
    (bfsRelax st ck pk).dist fk = st.dist fk := by
  unfold bfsRelax
  split
  · show (if fk = pk then _ else st.dist fk) = st.dist fk
    rw [if_neg h]
  · rfl

theorem bfsEnqueue_found (st : BfsState) (ck pk : ℤ × ℤ) (p : ℤ) :
    (bfsEnqueue st ck pk p).found = st.found := by
  unfold bfsEnqueue
  split <;> rfl

theorem bfsEnqueue_dist (st : BfsState) (ck pk : ℤ × ℤ) (p : ℤ) (fk : ℤ × ℤ) :
    (bfsEnqueue st ck pk p).dist fk = st.dist fk := by
  unfold bfsEnqueue
  split <;> rfl

theorem scan_found_false (n : ℕ) (hv : CellValues) (board0 : ℕ → ℕ → ℕ) (curr : ℤ) :
    ∀ (l : List ℤ) (st : BfsState),
      (scanNeighbors n hv board0 curr l st).found = false → st.found = false := by
  intro l
  induction l with
  | nil => intro st h; exact h
  | cons p rest ih =>
    intro st h
    simp only [scanNeighbors] at h
    by_cases hbf : boardAt n board0 (pointRowColZ n p).1 (pointRowColZ n p).2 = hv.food
    · rw [if_pos hbf] at h
      simp at h
    · rw [if_neg hbf] at h
      have h2 := ih _ h
      rw [bfsEnqueue_found, bfsRelax_found] at h2
      exact h2

theorem scan_dist_top (n : ℕ) (hv : CellValues) (board0 : ℕ → ℕ → ℕ) (curr : ℤ)
    (fk : ℤ × ℤ)
    (hfk : ∀ r c : ℤ, arrKey n (r, c) = fk → boardAt n board0 r c = hv.food) :
    ∀ (l : List ℤ) (st : BfsState), st.dist fk = ⊤ →
      (scanNeighbors n hv board0 curr l st).found = false →
      (scanNeighbors n hv board0 curr l st).dist fk = ⊤ := by
  intro l
  induction l with
  | nil => intro st h _; exact h
  | cons p rest ih =>
    intro st hdist hfound
    simp only [scanNeighbors] at hfound ⊢
    by_cases hbf : boardAt n board0 (pointRowColZ n p).1 (pointRowColZ n p).2 = hv.food
    · rw [if_pos hbf] at hfound
      simp at hfound
    · rw [if_neg hbf] at hfound ⊢
      have hpk : fk ≠ arrKey n (pointRowColZ n p) := by
        intro he
        exact hbf (hfk (pointRowColZ n p).1 (pointRowColZ n p).2 he.symm)
      apply ih
      · rw [bfsEnqueue_dist, bfsRelax_dist_ne _ _ _ _ hpk]
        exact hdist
      · exact hfound

theorem bfsLoop_found_false (n : ℕ) (hv : CellValues) (board0 : ℕ → ℕ → ℕ) :
    ∀ (fuel : ℕ) (st : BfsState),
      (bfsLoop n hv board0 fuel st).found = false → st.found = false := by
  intro fuel
  induction fuel with
  | zero => intro st h; exact h
  | succ f ih =>
    intro st h
    by_cases hf : st.found = true
    · exact absurd h (by simp only [bfsLoop, if_pos hf]; rw [hf]; simp)
    · exact eq_false_of_ne_true hf

theorem bfsLoop_dist_top (n : ℕ) (hv : CellValues) (board0 : ℕ → ℕ → ℕ)
    (fk : ℤ × ℤ)
    (hfk : ∀ r c : ℤ, arrKey n (r, c) = fk → boardAt n board0 r c = hv.food) :
    ∀ (fuel : ℕ) (st : BfsState), st.dist fk = ⊤ →
      (bfsLoop n hv board0 fuel st).found = false →
      (bfsLoop n hv board0 fuel st).dist fk = ⊤ := by
  intro fuel
  induction fuel with
  | zero => intro st h _; exact h
  | succ f ih =>
    intro st hdist hfound
    obtain ⟨qu, di, vi, fo⟩ := st
    cases fo with
    | true =>
      simp only [bfsLoop, if_pos] at hfound
      simp at hfound
    | false =>
      cases qu with
      | nil =>
        exact hdist
      | cons curr rest =>
        simp only [bfsLoop] at hfound ⊢
        by_cases hn : bfsNeighbors n hv board0 curr = []
        · rw [if_pos hn] at hfound ⊢
          exact ih _ hdist hfound
        · rw [if_neg hn] at hfound ⊢
          have hsfound : (scanNeighbors n hv board0 curr (bfsNeighbors n hv board0 curr)
              { queue := rest, dist := di, visited := vi, found := false }).found = false :=
            bfsLoop_found_false n hv board0 f _ hfound
          exact ih _ (scan_dist_top n hv board0 curr fk hfk _ _ hdist hsfound) hfound

/-- C6: when the BFS loop ends without discovering the food (found flag
still false, frontier empty), and the food cell is a genuine food cell
distinct from the head cell, `_get_shortest_path` returns the empty path — a
normal outcome, not an error — and `move` returns the fixed fallback action
`1` for that board. -/
theorem bfs_no_path_fallback (n : ℕ) (hv : CellValues) (board : ℕ → ℕ → ℕ → ℕ)
    (fuel : ℕ) (hfuel : 1 ≤ fuel)
    (hne : arrKey n (pointRowColZ n (locatePoint n (fun r c => board r c 0) hv.food)) ≠
      arrKey n (pointRowColZ n (locatePoint n (fun r c => board r c 0) hv.head)))
    (hfood : boardAt n (fun r c => board r c 0)
        (pointRowColZ n (locatePoint n (fun r c => board r c 0) hv.food)).1
        (pointRowColZ n (locatePoint n (fun r c => board r c 0) hv.food)).2 = hv.food)
    (hrun : (bfsLoop n hv (fun r c => board r c 0) fuel
        (bfsInit n (locatePoint n (fun r c => board r c 0) hv.head))).found = false)
    (hqueue : (bfsLoop n hv (fun r c => board r c 0) fuel
        (bfsInit n (locatePoint n (fun r c => board r c 0) hv.head))).queue = []) :
    get_shortest_path n hv board fuel = [] ∧ bfsMove n hv [board] fuel = [1] := by
  have hfk : ∀ r c : ℤ,
      arrKey n (r, c) =
        arrKey n (pointRowColZ n (locatePoint n (fun r c => board r c 0) hv.food)) →
      boardAt n (fun r c => board r c 0) r c = hv.food := by
    intro r c h
    simp only [arrKey, Prod.mk.injEq] at h
    unfold boardAt
    rw [h.1, h.2]
    exact hfood
  have hinit : (bfsInit n (locatePoint n (fun r c => board r c 0) hv.head)).dist
      (arrKey n (pointRowColZ n (locatePoint n (fun r c => board r c 0) hv.food))) = ⊤ := by
    show (if arrKey n (pointRowColZ n (locatePoint n (fun r c => board r c 0) hv.food)) =
        arrKey n (pointRowColZ n (locatePoint n (fun r c => board r c 0) hv.head))
      then (0 : ℕ∞) else ⊤) = ⊤
    rw [if_neg hne]
  have htop := bfsLoop_dist_top n hv (fun r c => board r c 0) _ hfk fuel _ hinit hrun
  obtain ⟨F, rfl⟩ : ∃ F, fuel = F + 1 := ⟨fuel - 1, by omega⟩
  have hpath : get_shortest_path n hv board (F + 1) = [] := by
    unfold get_shortest_path
    simp only [reconstructPath]
    rw [if_pos htop]
  refine ⟨hpath, ?_⟩
  unfold bfsMove
  simp only [List.map_cons, List.map_nil, List.cons.injEq, and_true]
  rw [hpath]
  rw [if_pos rfl]

set_option maxRecDepth 20000 in
theorem bfs_no_path_fallback_witness :
    ((1 : ℕ) ≤ 10 ∧
      arrKey 5 (pointRowColZ 5
          (locatePoint 5 (fun r c => bfsEnclosedBoard r c 0) bfsDemoValues.food)) ≠
        arrKey 5 (pointRowColZ 5
          (locatePoint 5 (fun r c => bfsEnclosedBoard r c 0) bfsDemoValues.head)) ∧
      boardAt 5 (fun r c => bfsEnclosedBoard r c 0)
          (pointRowColZ 5
            (locatePoint 5 (fun r c => bfsEnclosedBoard r c 0) bfsDemoValues.food)).1
          (pointRowColZ 5
            (locatePoint 5 (fun r c => bfsEnclosedBoard r c 0) bfsDemoValues.food)).2 =
        bfsDemoValues.food ∧
      (bfsLoop 5 bfsDemoValues (fun r c => bfsEnclosedBoard r c 0) 10
          (bfsInit 5 (locatePoint 5 (fun r c => bfsEnclosedBoard r c 0)
            bfsDemoValues.head))).found = false ∧
      (bfsLoop 5 bfsDemoValues (fun r c => bfsEnclosedBoard r c 0) 10
          (bfsInit 5 (locatePoint 5 (fun r c => bfsEnclosedBoard r c 0)
            bfsDemoValues.head))).queue = []) ∧
    (get_shortest_path 5 bfsDemoValues bfsEnclosedBoard 10 = [] ∧
      bfsMove 5 bfsDemoValues [bfsEnclosedBoard] 10 = [1]) :=
  ⟨⟨by decide, by decide, by decide, by decide, by decide⟩,
    bfs_no_path_fallback 5 bfsDemoValues bfsEnclosedBoard 10 (by decide) (by decide)
      (by decide) (by decide) (by decide)⟩

end SnakeRL
